import Mathlib

/-!
Verification of the schema-guided Avro marshaling engine (`src/src/lib.rs`):
the encoder `to_avro_value` (dynamic Python value + schema → tagged Avro
intermediate value) and the decoder `to_pyobject` (intermediate value →
dynamic Python value).

The embedding translates the two functions of the source.  The host-runtime
extraction capabilities (`extract::<T>`, `cast_as::<PyDict>`, `is_none`) and
the schema library's `is_nullable` live in external crates that are not part
of this repository; those are modelled from the spec (each such definition
carries a `Modelled from the spec:` doc comment).  Failure (`PyResult::Err`,
the spec's `TypeMismatch` at encode time) is modelled as `Option.none`.
-/

namespace AvroPy

/-- The dynamic (Python) value model: none, booleans, arbitrary-precision
integers, floats (carried exactly as rationals), byte strings, text,
lists and dicts.  A dict is an association list; Python guarantees unique
keys, which theorems assume through explicit `Nodup` hypotheses. -/
inductive Dyn : Type where
  | none
  | bool (b : Bool)
  | int (n : Int)
  | float (q : ℚ)
  | bytes (bs : List Nat)
  | str (s : String)
  | list (items : List Dyn)
  | dict (entries : List (String × Dyn))

/-- The schema node model (`avro_rs::Schema`), as consumed by the source:
the record case keeps each field's name and schema (the only parts the
source reads).  `unrecognized` is a stand-in for schema kinds outside the
handled set, reaching the source's catch-all arm; Modelled from the spec:
"an unrecognized schema kind is treated as always producing `Null`". -/
inductive Schema : Type where
  | null
  | boolean
  | int
  | long
  | float
  | double
  | bytes
  | string
  | array (inner : Schema)
  | map (inner : Schema)
  | union (variants : List Schema)
  | record (name : String) (fields : List (String × Schema))
  | enum (name : String) (symbols : List String)
  | fixed (name : String) (size : Nat)
  | unrecognized

/-- The intermediate value model (`avro_rs::types::Value`).  `int` carries a
32-bit signed value, `long` a 64-bit one, `enum`'s ordinal is 32-bit signed;
the embedding stores them as `Int` with the ranges enforced where the source
enforces them.  Floats are carried exactly.  `unrecognized` is a stand-in
for value variants outside the handled set, reaching the decoder's
catch-all arm; Modelled from the spec: "any variant it cannot classify
degrades to representing as empty/none rather than raising". -/
inductive Value : Type where
  | null
  | boolean (b : Bool)
  | int (n : Int)
  | long (n : Int)
  | float (x : ℚ)
  | double (x : ℚ)
  | bytes (bs : List Nat)
  | string (s : String)
  | fixed (size : Nat) (bs : List Nat)
  | enum (ordinal : Int) (symbol : String)
  | union (inner : Value)
  | array (items : List Value)
  | map (entries : List (String × Value))
  | record (fields : List (String × Value))
  | unrecognized

def i32Min : Int := -(2 ^ 31)
def i32Max : Int := 2 ^ 31 - 1
def i64Min : Int := -(2 ^ 63)
def i64Max : Int := 2 ^ 63 - 1

/-- Rust `as usize` applied to an `i32` value (source: `datum.extract::<i32>(py)? as usize`):
two's-complement reinterpretation into the 64-bit unsigned range. -/
def i32AsUsize (n : Int) : Nat := (n % (2 : Int) ^ 64).toNat

/-- Rust `as i32` applied to a `usize` value (source: `index as i32`):
wrap modulo `2^32` into the signed 32-bit range. -/
def usizeAsI32 (k : Nat) : Int := Int.bmod k (2 ^ 32)

/-- Python dict lookup (`PyDict::get_item`) on the association-list model:
first entry with the given key (keys are unique in a real dict). -/
def dictGet {α : Type} (es : List (String × α)) (k : String) : Option α :=
  match es with
  | [] => Option.none
  | (k0, v) :: rest => if k0 = k then some v else dictGet rest k

/-- The source's `datum.is_none(py)` test: the dynamic value is Python `None`. -/
def Dyn.isNone : Dyn → Bool
  | .none => true
  | _ => false

/-- Modelled from the spec: exact representability of a rational in IEEE
binary32, the spec's "convertible without loss" to a 32-bit float: zero, or
`m * 2^E` with `|m| ≤ 2^24 - 1` and `E ∈ [-149, 104]`. -/
def isF32 (q : ℚ) : Bool :=
  decide (q = 0) ||
    (List.range 254).any fun i =>
      let m : ℚ := if i ≤ 149 then q * (2 : ℚ) ^ (149 - i) else q / (2 : ℚ) ^ (i - 149)
      decide (m.den = 1) && decide (m.num.natAbs ≤ 2 ^ 24 - 1)

/-- Modelled from the spec: the host-runtime "try extract as boolean"
capability (`datum.extract::<bool>`): succeeds exactly on a dynamic
boolean. -/
def extractBool : Dyn → Option Bool
  | .bool b => some b
  | _ => Option.none

/-- Modelled from the spec: "try extract as 32-bit integer"
(`datum.extract::<i32>`): an integer representable in 32 bits — a
conversion that would truncate fails, it does not wrap.  A dynamic boolean
is a Python integer (`True = 1`, `False = 0`) and is accepted.  Anything
else fails. -/
def extractI32 : Dyn → Option Int
  | .int n => if i32Min ≤ n ∧ n ≤ i32Max then some n else Option.none
  | .bool b => some (if b then 1 else 0)
  | _ => Option.none

/-- Modelled from the spec: "try extract as 64-bit integer"
(`datum.extract::<i64>`), as `extractI32` with the 64-bit bounds. -/
def extractI64 : Dyn → Option Int
  | .int n => if i64Min ≤ n ∧ n ≤ i64Max then some n else Option.none
  | .bool b => some (if b then 1 else 0)
  | _ => Option.none

/-- Modelled from the spec: "try extract as 32-bit float"
(`datum.extract::<f32>`): a float value convertible without loss to 32-bit
precision; lossy conversions fail. -/
def extractF32 : Dyn → Option ℚ
  | .float q => if isF32 q then some q else Option.none
  | _ => Option.none

/-- Modelled from the spec: "try extract as 64-bit float"
(`datum.extract::<f64>`): any dynamic float (carried exactly). -/
def extractF64 : Dyn → Option ℚ
  | .float q => some q
  | _ => Option.none

/-- Modelled from the spec: "try extract as text" (`datum.extract::<String>`):
succeeds exactly on dynamic text. -/
def extractString : Dyn → Option String
  | .str s => some s
  | _ => Option.none

/-- Modelled from the spec: "try extract as byte sequence"
(`datum.extract::<Vec<u8>>`): succeeds exactly on a dynamic byte
sequence. -/
def extractBytes : Dyn → Option (List Nat)
  | .bytes bs => some bs
  | _ => Option.none

/-- Modelled from the spec: "try extract as ordered sequence"
(`datum.extract::<Vec<PyObject>>`): succeeds exactly on a dynamic list. -/
def extractList : Dyn → Option (List Dyn)
  | .list xs => some xs
  | _ => Option.none

/-- Modelled from the spec: "cast as key-value mapping"
(`datum.cast_as::<PyDict>`): succeeds exactly on a dynamic dict. -/
def castDict : Dyn → Option (List (String × Dyn))
  | .dict es => some es
  | _ => Option.none

/-- Whether a schema node is the `Null` schema. -/
def isNullSchema : Schema → Bool
  | .null => true
  | _ => false

/-- Modelled from the spec: `UnionSchema::is_nullable` of the schema
library, per the spec's "if the union contains a `Null` variant". -/
def isNullable (vs : List Schema) : Bool := vs.any isNullSchema

mutual

/-- Embedding of the source's encoder `to_avro_value(py, datum, schema)`:
dynamic value + schema → intermediate value, `Option.none` on the
type-mismatch error. -/
def to_avro_value (d : Dyn) (s : Schema) : Option Value :=
  match s with
  | .null => if d.isNone then some .null else Option.none
  | .boolean => (extractBool d).map .boolean
  | .int => (extractI32 d).map .int
  | .long => (extractI64 d).map .long
  | .float => (extractF32 d).map .float
  | .double => (extractF64 d).map .double
  | .bytes => (extractBytes d).map .bytes
  | .string => (extractString d).map .string
  | .array inner =>
      (extractList d).bind fun xs => (encodeItems xs inner).map .array
  | .map inner =>
      (castDict d).bind fun es => (encodeEntries es inner).map .map
  | .union variants =>
      -- Optimization for when union is used for optional values
      if isNullable variants && d.isNone then some (.union .null)
      else encodeVariants d variants
  | .record _ fields =>
      (castDict d).bind fun es => (encodeFields es fields).map .record
  | .enum _ syms =>
      match extractString d with
      | some s =>
          match syms.findIdx? (fun item => item == s) with
          | some index => some (.enum (usizeAsI32 index) s)
          | Option.none => Option.none
      | Option.none =>
          (extractI32 d).bind fun n =>
            let index := i32AsUsize n
            if h : index < syms.length then
              some (.enum (usizeAsI32 index) (syms.get ⟨index, h⟩))
            else Option.none
  | .fixed _ _ => (extractBytes d).map fun bs => .fixed bs.length bs
  | .unrecognized => some .null
termination_by (sizeOf s, 0)

/-- The `Array` arm's element loop: encode each element against the element
schema, failing fast. -/
def encodeItems (xs : List Dyn) (s : Schema) : Option (List Value) :=
  match xs with
  | [] => some []
  | x :: rest =>
      (to_avro_value x s).bind fun v => (encodeItems rest s).map (v :: ·)
termination_by (sizeOf s, 1 + sizeOf xs)

/-- The `Map` arm's entry loop: keys pass through, each value is encoded
against the map's value schema, failing fast. -/
def encodeEntries (es : List (String × Dyn)) (s : Schema) :
    Option (List (String × Value)) :=
  match es with
  | [] => some []
  | (k, x) :: rest =>
      (to_avro_value x s).bind fun v => (encodeEntries rest s).map ((k, v) :: ·)
termination_by (sizeOf s, 1 + sizeOf es)

/-- The `Union` arm's variant loop: try the variants in declared order and
wrap the first success as `Union`; fail if none succeeds. -/
def encodeVariants (d : Dyn) (vs : List Schema) : Option Value :=
  match vs with
  | [] => Option.none
  | v :: rest =>
      match to_avro_value d v with
      | some x => some (.union x)
      | Option.none => encodeVariants d rest
termination_by (sizeOf vs, 0)

/-- The `Record` arm's field loop: for each schema field in declared order,
look the field's name up in the dict and encode it against the field's
schema; a missing field is an error. -/
def encodeFields (es : List (String × Dyn)) (fields : List (String × Schema)) :
    Option (List (String × Value)) :=
  match fields with
  | [] => some []
  | (name, fs) :: rest =>
      match dictGet es name with
      | some dv =>
          (to_avro_value dv fs).bind fun v =>
            (encodeFields es rest).map ((name, v) :: ·)
      | Option.none => Option.none
termination_by (sizeOf fields, 0)

end

mutual

/-- Embedding of the source's decoder `to_pyobject(py, datum)`:
intermediate value → dynamic value (`Option` mirrors `PyResult`; the only
failure paths in the source are host allocation errors, so every arm is
`some`). -/
def to_pyobject (v : Value) : Option Dyn :=
  match v with
  | .null => some .none
  | .boolean b => some (.bool b)
  | .int n => some (.int n)
  | .long n => some (.int n)
  | .float x => some (.float x)
  | .double x => some (.float x)
  | .bytes bs => some (.bytes bs)
  | .string s => some (.str s)
  | .fixed _ bs => some (.bytes bs)
  | .enum _ symbol => some (.str symbol)
  | .union inner => to_pyobject inner
  | .array items => (decodeItems items).map .list
  | .map entries => (decodeEntries entries).map .dict
  | .record fields => (decodeEntries fields).map .dict
  | .unrecognized => some .none
termination_by sizeOf v

/-- The decoder's `Array` loop: decode each item in order into a list. -/
def decodeItems (items : List Value) : Option (List Dyn) :=
  match items with
  | [] => some []
  | v :: rest => (to_pyobject v).bind fun d => (decodeItems rest).map (d :: ·)
termination_by sizeOf items

/-- The decoder's `Map`/`Record` loop: decode each entry's value, keeping
keys and order. -/
def decodeEntries (entries : List (String × Value)) :
    Option (List (String × Dyn)) :=
  match entries with
  | [] => some []
  | (k, v) :: rest =>
      (to_pyobject v).bind fun d => (decodeEntries rest).map ((k, d) :: ·)
termination_by sizeOf entries

end

/-- The composite `write`-then-`read` value path: encode against the schema,
then decode (the external binary codec in between is out of scope, per the
spec). -/
def writeRead (d : Dyn) (s : Schema) : Option Dyn :=
  (to_avro_value d s).bind to_pyobject

/-! Structural equality of dynamic values (Python `==` on the shapes the
engine produces): pointwise on scalars and lists, key-based and
order-insensitive on dicts. -/

/-- Every key of `fs` is present in `es`. -/
def keysIncluded (fs es : List (String × Dyn)) : Bool :=
  fs.all fun p => (dictGet es p.1).isSome

mutual

/-- Structural equality of dynamic values: scalars and lists compare
pointwise, dicts compare as key-value mappings (order-insensitive). -/
def dynEquiv (a b : Dyn) : Bool :=
  match a, b with
  | .none, .none => true
  | .bool x, .bool y => x == y
  | .int x, .int y => x == y
  | .float x, .float y => x == y
  | .bytes x, .bytes y => x == y
  | .str x, .str y => x == y
  | .list xs, .list ys => dynEquivList xs ys
  | .dict es, .dict fs => dynSub es fs && keysIncluded fs es
  | _, _ => false
termination_by sizeOf a

/-- Pointwise structural equality of two lists of dynamic values. -/
def dynEquivList (xs ys : List Dyn) : Bool :=
  match xs, ys with
  | [], [] => true
  | x :: xs, y :: ys => dynEquiv x y && dynEquivList xs ys
  | _, _ => false
termination_by sizeOf xs

/-- Every entry of `es` has a structurally equal value under the same key
in `fs`. -/
def dynSub (es fs : List (String × Dyn)) : Bool :=
  match es with
  | [] => true
  | (k, v) :: rest =>
      (match dictGet fs k with
       | some w => dynEquiv v w
       | Option.none => false) && dynSub rest fs
termination_by sizeOf es

end

/-! Conformance of a dynamic value to a schema: the strict structural typing
relation under which the spec's round-trip property is claimed.  For a union
it follows the encoder's first-match discipline: the value must conform to
some variant, and the encoder must reject every earlier variant (otherwise
an earlier structurally-compatible variant would capture the value). -/

/-- The keys of an association list are pairwise distinct. -/
def keysNodup {α : Type} (es : List (String × α)) : Bool :=
  decide (es.map Prod.fst).Nodup

/-- Whether `k` occurs among the declared field names. -/
def isFieldName (fields : List (String × Schema)) (k : String) : Bool :=
  fields.any fun f => f.1 == k

mutual

/-- The dynamic value conforms to the schema: the typing relation of the
spec's round-trip property. -/
def conforms (s : Schema) (d : Dyn) : Bool :=
  match s, d with
  | .null, .none => true
  | .boolean, .bool _ => true
  | .int, .int n => decide (i32Min ≤ n ∧ n ≤ i32Max)
  | .long, .int n => decide (i64Min ≤ n ∧ n ≤ i64Max)
  | .float, .float q => isF32 q
  | .double, .float _ => true
  | .bytes, .bytes _ => true
  | .string, .str _ => true
  | .array inner, .list xs => conformsList inner xs
  | .map inner, .dict es => keysNodup es && conformsVals inner es
  | .union vs, d => if d.isNone then isNullable vs else conformsFirst vs d
  | .record _ fields, .dict es =>
      keysNodup es && conformsFields fields es &&
        es.all fun p => isFieldName fields p.1
  | .enum _ syms, .str s => syms.contains s
  | .fixed _ _, .bytes _ => true
  | _, _ => false
termination_by (sizeOf s, 0)

/-- Every element of the list conforms to the element schema. -/
def conformsList (s : Schema) (xs : List Dyn) : Bool :=
  match xs with
  | [] => true
  | x :: rest => conforms s x && conformsList s rest
termination_by (sizeOf s, 1 + sizeOf xs)

/-- Every value of the association list conforms to the value schema. -/
def conformsVals (s : Schema) (es : List (String × Dyn)) : Bool :=
  match es with
  | [] => true
  | (_, x) :: rest => conforms s x && conformsVals s rest
termination_by (sizeOf s, 1 + sizeOf es)

/-- The value conforms to the first variant the encoder does not reject:
some variant accepts it structurally, and every earlier variant fails to
encode it. -/
def conformsFirst (vs : List Schema) (d : Dyn) : Bool :=
  match vs with
  | [] => false
  | v :: rest =>
      if conforms v d then true
      else if (to_avro_value d v).isSome then false
      else conformsFirst rest d
termination_by (sizeOf vs, 0)

/-- Every declared field is present in the dict and its value conforms to
the field's schema. -/
def conformsFields (fields : List (String × Schema)) (es : List (String × Dyn)) : Bool :=
  match fields with
  | [] => true
  | (name, fs) :: rest =>
      (match dictGet es name with
       | some dv => conforms fs dv
       | Option.none => false) && conformsFields rest es
termination_by (sizeOf fields, 0)

end

/-- The value encodes against the schema and decodes back to a structurally
equal dynamic value. -/
def RoundTrips (s : Schema) (d : Dyn) : Prop :=
  ∃ v d', to_avro_value d s = some v ∧ to_pyobject v = some d' ∧
    dynEquiv d' d = true

/-! Unfolding equations for the well-founded definitions, one per schema or
value constructor. -/

@[simp] theorem to_avro_value_null (d : Dyn) :
    to_avro_value d .null = if d.isNone then some .null else Option.none := by
  rw [to_avro_value.eq_def]

@[simp] theorem to_avro_value_boolean (d : Dyn) :
    to_avro_value d .boolean = (extractBool d).map .boolean := by
  rw [to_avro_value.eq_def]

@[simp] theorem to_avro_value_int (d : Dyn) :
    to_avro_value d .int = (extractI32 d).map .int := by
  rw [to_avro_value.eq_def]

@[simp] theorem to_avro_value_long (d : Dyn) :
    to_avro_value d .long = (extractI64 d).map .long := by
  rw [to_avro_value.eq_def]

@[simp] theorem to_avro_value_float (d : Dyn) :
    to_avro_value d .float = (extractF32 d).map .float := by
  rw [to_avro_value.eq_def]

@[simp] theorem to_avro_value_double (d : Dyn) :
    to_avro_value d .double = (extractF64 d).map .double := by
  rw [to_avro_value.eq_def]

@[simp] theorem to_avro_value_bytes (d : Dyn) :
    to_avro_value d .bytes = (extractBytes d).map .bytes := by
  rw [to_avro_value.eq_def]

@[simp] theorem to_avro_value_string (d : Dyn) :
    to_avro_value d .string = (extractString d).map .string := by
  rw [to_avro_value.eq_def]

@[simp] theorem to_avro_value_array (d : Dyn) (inner : Schema) :
    to_avro_value d (.array inner) =
      (extractList d).bind fun xs => (encodeItems xs inner).map .array := by
  rw [to_avro_value.eq_def]

@[simp] theorem to_avro_value_map (d : Dyn) (inner : Schema) :
    to_avro_value d (.map inner) =
      (castDict d).bind fun es => (encodeEntries es inner).map .map := by
  rw [to_avro_value.eq_def]

@[simp] theorem to_avro_value_union (d : Dyn) (variants : List Schema) :
    to_avro_value d (.union variants) =
      if isNullable variants && d.isNone then some (.union .null)
      else encodeVariants d variants := by
  rw [to_avro_value.eq_def]

@[simp] theorem to_avro_value_record (d : Dyn) (name : String)
    (fields : List (String × Schema)) :
    to_avro_value d (.record name fields) =
      (castDict d).bind fun es => (encodeFields es fields).map .record := by
  rw [to_avro_value.eq_def]

@[simp] theorem to_avro_value_enum (d : Dyn) (name : String)
    (syms : List String) :
    to_avro_value d (.enum name syms) =
      match extractString d with
      | some s =>
          match syms.findIdx? (fun item => item == s) with
          | some index => some (.enum (usizeAsI32 index) s)
          | Option.none => Option.none
      | Option.none =>
          (extractI32 d).bind fun n =>
            let index := i32AsUsize n
            if h : index < syms.length then
              some (.enum (usizeAsI32 index) (syms.get ⟨index, h⟩))
            else Option.none := by
  rw [to_avro_value.eq_def]

@[simp] theorem to_avro_value_fixed (d : Dyn) (name : String) (size : Nat) :
    to_avro_value d (.fixed name size) =
      (extractBytes d).map fun bs => .fixed bs.length bs := by
  rw [to_avro_value.eq_def]

@[simp] theorem to_avro_value_unrecognized (d : Dyn) :
    to_avro_value d .unrecognized = some .null := by
  rw [to_avro_value.eq_def]

@[simp] theorem encodeItems_nil (s : Schema) : encodeItems [] s = some [] := by
  rw [encodeItems.eq_def]

@[simp] theorem encodeItems_cons (x : Dyn) (xs : List Dyn) (s : Schema) :
    encodeItems (x :: xs) s =
      (to_avro_value x s).bind fun v => (encodeItems xs s).map (v :: ·) := by
  rw [encodeItems.eq_def]

@[simp] theorem encodeEntries_nil (s : Schema) : encodeEntries [] s = some [] := by
  rw [encodeEntries.eq_def]

@[simp] theorem encodeEntries_cons (k : String) (x : Dyn)
    (es : List (String × Dyn)) (s : Schema) :
    encodeEntries ((k, x) :: es) s =
      (to_avro_value x s).bind fun v => (encodeEntries es s).map ((k, v) :: ·) := by
  rw [encodeEntries.eq_def]

@[simp] theorem encodeVariants_nil (d : Dyn) : encodeVariants d [] = Option.none := by
  rw [encodeVariants.eq_def]

@[simp] theorem encodeVariants_cons (d : Dyn) (v : Schema) (vs : List Schema) :
    encodeVariants d (v :: vs) =
      match to_avro_value d v with
      | some x => some (.union x)
      | Option.none => encodeVariants d vs := by
  rw [encodeVariants.eq_def]

@[simp] theorem encodeFields_nil (es : List (String × Dyn)) :
    encodeFields es [] = some [] := by
  rw [encodeFields.eq_def]

@[simp] theorem encodeFields_cons (es : List (String × Dyn)) (name : String)
    (fs : Schema) (rest : List (String × Schema)) :
    encodeFields es ((name, fs) :: rest) =
      match dictGet es name with
      | some dv =>
          (to_avro_value dv fs).bind fun v =>
            (encodeFields es rest).map ((name, v) :: ·)
      | Option.none => Option.none := by
  rw [encodeFields.eq_def]

@[simp] theorem to_pyobject_null : to_pyobject .null = some .none := by
  rw [to_pyobject.eq_def]

@[simp] theorem to_pyobject_boolean (b : Bool) :
    to_pyobject (.boolean b) = some (.bool b) := by
  rw [to_pyobject.eq_def]

@[simp] theorem to_pyobject_int (n : Int) :
    to_pyobject (.int n) = some (.int n) := by
  rw [to_pyobject.eq_def]

@[simp] theorem to_pyobject_long (n : Int) :
    to_pyobject (.long n) = some (.int n) := by
  rw [to_pyobject.eq_def]

@[simp] theorem to_pyobject_float (x : ℚ) :
    to_pyobject (.float x) = some (.float x) := by
  rw [to_pyobject.eq_def]

@[simp] theorem to_pyobject_double (x : ℚ) :
    to_pyobject (.double x) = some (.float x) := by
  rw [to_pyobject.eq_def]

@[simp] theorem to_pyobject_bytes (bs : List Nat) :
    to_pyobject (.bytes bs) = some (.bytes bs) := by
  rw [to_pyobject.eq_def]

@[simp] theorem to_pyobject_string (s : String) :
    to_pyobject (.string s) = some (.str s) := by
  rw [to_pyobject.eq_def]

@[simp] theorem to_pyobject_fixed (size : Nat) (bs : List Nat) :
    to_pyobject (.fixed size bs) = some (.bytes bs) := by
  rw [to_pyobject.eq_def]

@[simp] theorem to_pyobject_enum (ordinal : Int) (symbol : String) :
    to_pyobject (.enum ordinal symbol) = some (.str symbol) := by
  rw [to_pyobject.eq_def]

@[simp] theorem to_pyobject_union (inner : Value) :
    to_pyobject (.union inner) = to_pyobject inner := by
  rw [to_pyobject.eq_def]

@[simp] theorem to_pyobject_array (items : List Value) :
    to_pyobject (.array items) = (decodeItems items).map .list := by
  rw [to_pyobject.eq_def]

@[simp] theorem to_pyobject_map (entries : List (String × Value)) :
    to_pyobject (.map entries) = (decodeEntries entries).map .dict := by
  rw [to_pyobject.eq_def]

@[simp] theorem to_pyobject_record (fields : List (String × Value)) :
    to_pyobject (.record fields) = (decodeEntries fields).map .dict := by
  rw [to_pyobject.eq_def]

@[simp] theorem to_pyobject_unrecognized : to_pyobject .unrecognized = some .none := by
  rw [to_pyobject.eq_def]

@[simp] theorem decodeItems_nil : decodeItems [] = some [] := by
  rw [decodeItems.eq_def]

@[simp] theorem decodeItems_cons (v : Value) (rest : List Value) :
    decodeItems (v :: rest) =
      (to_pyobject v).bind fun d => (decodeItems rest).map (d :: ·) := by
  rw [decodeItems.eq_def]

@[simp] theorem decodeEntries_nil : decodeEntries [] = some [] := by
  rw [decodeEntries.eq_def]

@[simp] theorem decodeEntries_cons (k : String) (v : Value)
    (rest : List (String × Value)) :
    decodeEntries ((k, v) :: rest) =
      (to_pyobject v).bind fun d => (decodeEntries rest).map ((k, d) :: ·) := by
  rw [decodeEntries.eq_def]

@[simp] theorem dynEquiv_none : dynEquiv .none .none = true := by
  rw [dynEquiv.eq_def]

@[simp] theorem dynEquiv_bool (x y : Bool) : dynEquiv (.bool x) (.bool y) = (x == y) := by
  rw [dynEquiv.eq_def]

@[simp] theorem dynEquiv_int (x y : Int) : dynEquiv (.int x) (.int y) = (x == y) := by
  rw [dynEquiv.eq_def]

@[simp] theorem dynEquiv_float (x y : ℚ) : dynEquiv (.float x) (.float y) = (x == y) := by
  rw [dynEquiv.eq_def]

@[simp] theorem dynEquiv_bytes (x y : List Nat) :
    dynEquiv (.bytes x) (.bytes y) = (x == y) := by
  rw [dynEquiv.eq_def]

@[simp] theorem dynEquiv_str (x y : String) :
    dynEquiv (.str x) (.str y) = (x == y) := by
  rw [dynEquiv.eq_def]

@[simp] theorem dynEquiv_list (xs ys : List Dyn) :
    dynEquiv (.list xs) (.list ys) = dynEquivList xs ys := by
  rw [dynEquiv.eq_def]

@[simp] theorem dynEquiv_dict (es fs : List (String × Dyn)) :
    dynEquiv (.dict es) (.dict fs) = (dynSub es fs && keysIncluded fs es) := by
  rw [dynEquiv.eq_def]

@[simp] theorem dynEquivList_nil : dynEquivList [] [] = true := by
  rw [dynEquivList.eq_def]

@[simp] theorem dynEquivList_cons (x y : Dyn) (xs ys : List Dyn) :
    dynEquivList (x :: xs) (y :: ys) = (dynEquiv x y && dynEquivList xs ys) := by
  rw [dynEquivList.eq_def]

@[simp] theorem dynSub_nil (fs : List (String × Dyn)) : dynSub [] fs = true := by
  rw [dynSub.eq_def]

@[simp] theorem dynSub_cons (k : String) (v : Dyn) (rest fs : List (String × Dyn)) :
    dynSub ((k, v) :: rest) fs =
      ((match dictGet fs k with
        | some w => dynEquiv v w
        | Option.none => false) && dynSub rest fs) := by
  rw [dynSub.eq_def]

@[simp] theorem conforms_null_none : conforms .null .none = true := by
  rw [conforms.eq_def]

@[simp] theorem conforms_boolean (b : Bool) : conforms .boolean (.bool b) = true := by
  rw [conforms.eq_def]

@[simp] theorem conforms_int (n : Int) :
    conforms .int (.int n) = decide (i32Min ≤ n ∧ n ≤ i32Max) := by
  rw [conforms.eq_def]

@[simp] theorem conforms_long (n : Int) :
    conforms .long (.int n) = decide (i64Min ≤ n ∧ n ≤ i64Max) := by
  rw [conforms.eq_def]

@[simp] theorem conforms_float (q : ℚ) : conforms .float (.float q) = isF32 q := by
  rw [conforms.eq_def]

@[simp] theorem conforms_double (q : ℚ) : conforms .double (.float q) = true := by
  rw [conforms.eq_def]

@[simp] theorem conforms_bytes (bs : List Nat) : conforms .bytes (.bytes bs) = true := by
  rw [conforms.eq_def]

@[simp] theorem conforms_string (s : String) : conforms .string (.str s) = true := by
  rw [conforms.eq_def]

@[simp] theorem conforms_array (inner : Schema) (xs : List Dyn) :
    conforms (.array inner) (.list xs) = conformsList inner xs := by
  rw [conforms.eq_def]

@[simp] theorem conforms_map (inner : Schema) (es : List (String × Dyn)) :
    conforms (.map inner) (.dict es) = (keysNodup es && conformsVals inner es) := by
  rw [conforms.eq_def]

@[simp] theorem conforms_union (vs : List Schema) (d : Dyn) :
    conforms (.union vs) d =
      if d.isNone then isNullable vs else conformsFirst vs d := by
  rw [conforms.eq_def]

@[simp] theorem conforms_record (name : String) (fields : List (String × Schema))
    (es : List (String × Dyn)) :
    conforms (.record name fields) (.dict es) =
      (keysNodup es && conformsFields fields es &&
        es.all fun p => isFieldName fields p.1) := by
  rw [conforms.eq_def]

@[simp] theorem conforms_enum (name : String) (syms : List String) (s : String) :
    conforms (.enum name syms) (.str s) = syms.contains s := by
  rw [conforms.eq_def]

@[simp] theorem conforms_fixed (name : String) (size : Nat) (bs : List Nat) :
    conforms (.fixed name size) (.bytes bs) = true := by
  rw [conforms.eq_def]

@[simp] theorem conformsList_nil (s : Schema) : conformsList s [] = true := by
  rw [conformsList.eq_def]

@[simp] theorem conformsList_cons (s : Schema) (x : Dyn) (xs : List Dyn) :
    conformsList s (x :: xs) = (conforms s x && conformsList s xs) := by
  rw [conformsList.eq_def]

@[simp] theorem conformsVals_nil (s : Schema) : conformsVals s [] = true := by
  rw [conformsVals.eq_def]

@[simp] theorem conformsVals_cons (s : Schema) (k : String) (x : Dyn)
    (es : List (String × Dyn)) :
    conformsVals s ((k, x) :: es) = (conforms s x && conformsVals s es) := by
  rw [conformsVals.eq_def]

@[simp] theorem conformsFirst_nil (d : Dyn) : conformsFirst [] d = false := by
  rw [conformsFirst.eq_def]

@[simp] theorem conformsFirst_cons (v : Schema) (vs : List Schema) (d : Dyn) :
    conformsFirst (v :: vs) d =
      (if conforms v d then true
       else if (to_avro_value d v).isSome then false
       else conformsFirst vs d) := by
  rw [conformsFirst.eq_def]

@[simp] theorem conformsFields_nil (es : List (String × Dyn)) :
    conformsFields [] es = true := by
  rw [conformsFields.eq_def]

@[simp] theorem conformsFields_cons (name : String) (fs : Schema)
    (rest : List (String × Schema)) (es : List (String × Dyn)) :
    conformsFields ((name, fs) :: rest) es =
      ((match dictGet es name with
        | some dv => conforms fs dv
        | Option.none => false) && conformsFields rest es) := by
  rw [conformsFields.eq_def]

/-! Helper lemmas. -/

theorem isNullable_iff (vs : List Schema) : isNullable vs = true ↔ Schema.null ∈ vs := by
  simp only [isNullable, List.any_eq_true]
  constructor
  · rintro ⟨v, hv, h⟩
    cases v <;> simp [isNullSchema] at h
    exact hv
  · intro h
    exact ⟨_, h, rfl⟩

theorem encodeVariants_eq_findSome (d : Dyn) (vs : List Schema) :
    encodeVariants d vs = Option.map Value.union (vs.findSome? fun v => to_avro_value d v) := by
  induction vs with
  | nil => simp
  | cons v rest ih =>
      rw [encodeVariants_cons]
      cases h : to_avro_value d v with
      | none => simp [List.findSome?_cons, h, ih]
      | some x => simp [List.findSome?_cons, h]

/-- C2: for a union, a non-none value is encoded by trying the variants in
declared order: the result is the first variant's successful encoding,
wrapped in `Union` (so for `[Int, Long]` and a 32-bit-representable integer
the `Int` variant always wins), and if every variant fails the union fails
with the type-mismatch error. -/
theorem union_first_match :
    (∀ (d : Dyn) (vs : List Schema), d.isNone = false →
      to_avro_value d (.union vs) =
        Option.map Value.union (vs.findSome? fun v => to_avro_value d v)) ∧
    (∀ n : Int, i32Min ≤ n → n ≤ i32Max →
      to_avro_value (.int n) (.union [.int, .long]) = some (.union (.int n))) ∧
    (∀ (d : Dyn) (vs : List Schema), d.isNone = false →
      (∀ v ∈ vs, to_avro_value d v = Option.none) →
      to_avro_value d (.union vs) = Option.none) := by
  have main : ∀ (d : Dyn) (vs : List Schema), d.isNone = false →
      to_avro_value d (.union vs) =
        Option.map Value.union (vs.findSome? fun v => to_avro_value d v) := by
    intro d vs h
    rw [to_avro_value_union]
    simp [h, encodeVariants_eq_findSome]
  refine ⟨main, ?_, ?_⟩
  · intro n h1 h2
    rw [main (.int n) [.int, .long] rfl]
    simp [List.findSome?_cons, extractI32, h1, h2]
  · intro d vs h hall
    rw [main d vs h]
    have hnone : (vs.findSome? fun v => to_avro_value d v) = Option.none :=
      List.findSome?_eq_none_iff.mpr hall
    rw [hnone]
    rfl

/-- Witness for C2 at a concrete input: the integer 7 fits both `Int` and
`Long`, and the union `[Int, Long]` encodes it through the `Int` variant. -/
theorem union_first_match_witness :
    to_avro_value (.int 7) (.union [.int, .long]) = some (.union (.int 7)) :=
  union_first_match.2.1 7 (by decide) (by decide)

/-- C3: for a union containing a `Null` variant anywhere in its variant
list, a none value short-circuits to `Union(Null)` (the variant loop is
bypassed, so the result is `Union(Null)` whatever the other variants are —
including variants that would themselves accept a none value). -/
theorem union_null_shortcut :
    ∀ vs : List Schema, Schema.null ∈ vs →
      to_avro_value .none (.union vs) = some (.union .null) := by
  intro vs h
  rw [to_avro_value_union]
  simp [Dyn.isNone, (isNullable_iff vs).mpr h]

/-- Witness for C3 at a concrete input: the union `[String, Null]` (the
`Null` variant not even first) maps none to `Union(Null)`. -/
theorem union_null_shortcut_witness :
    to_avro_value .none (.union [.string, .null]) = some (.union .null) :=
  union_null_shortcut [.string, .null] (by simp)

theorem encodeFields_eq_none_of_missing (es : List (String × Dyn))
    (fields : List (String × Schema))
    (h : ∃ pr ∈ fields, dictGet es pr.1 = Option.none) :
    encodeFields es fields = Option.none := by
  induction fields with
  | nil => simp at h
  | cons f rest ih =>
      obtain ⟨pr, hpr, hget⟩ := h
      obtain ⟨n0, fs0⟩ := f
      rw [encodeFields_cons]
      rcases List.mem_cons.mp hpr with heq | hmem
      · rw [heq] at hget
        simp [hget]
      · cases hd : dictGet es n0 with
        | none => simp
        | some dv =>
            have hrest : encodeFields es rest = Option.none := ih ⟨pr, hmem, hget⟩
            cases henc : to_avro_value dv fs0 <;> simp [henc, hrest]

theorem encodeFields_congr (fields : List (String × Schema))
    (es es' : List (String × Dyn))
    (h : ∀ pr ∈ fields, dictGet es pr.1 = dictGet es' pr.1) :
    encodeFields es fields = encodeFields es' fields := by
  induction fields with
  | nil => simp
  | cons f rest ih =>
      obtain ⟨n0, fs0⟩ := f
      have h0 := h (n0, fs0) (by simp)
      have hrest := ih fun pr hpr => h pr (by simp [hpr])
      rw [encodeFields_cons, encodeFields_cons]
      simp only [h0, hrest]

theorem encodeFields_some (es : List (String × Dyn))
    (fields : List (String × Schema))
    (h : ∀ pr ∈ fields, ∃ dv v, dictGet es pr.1 = some dv ∧
      to_avro_value dv pr.2 = some v) :
    ∃ vs, encodeFields es fields = some vs ∧
      List.Forall₂ (fun pr pv => pv.1 = pr.1 ∧
        ∃ dv, dictGet es pr.1 = some dv ∧ to_avro_value dv pr.2 = some pv.2)
        fields vs := by
  induction fields with
  | nil => exact ⟨[], by simp, List.Forall₂.nil⟩
  | cons f rest ih =>
      obtain ⟨n0, fs0⟩ := f
      obtain ⟨dv, v, hget, henc⟩ := h (n0, fs0) (by simp)
      obtain ⟨vs, hvs, hfa⟩ := ih fun pr hpr => h pr (by simp [hpr])
      refine ⟨(n0, v) :: vs, ?_, List.Forall₂.cons ⟨rfl, dv, hget, henc⟩ hfa⟩
      rw [encodeFields_cons]
      simp [hget, henc, hvs]

theorem mapFst_eq_of_forall₂ {α β γ : Type}
    {P : (α × β) → (α × γ) → Prop}
    (hP : ∀ pr pv, P pr pv → pv.1 = pr.1) :
    ∀ {fields : List (α × β)} {vs : List (α × γ)}, List.Forall₂ P fields vs →
      vs.map Prod.fst = fields.map Prod.fst := by
  intro fields vs h
  induction h with
  | nil => rfl
  | cons hh _ ih => simp [hP _ _ hh, ih]

/-- C4: encoding a record from a dict missing at least one schema-declared
field name fails with the type-mismatch error — no default is substituted
and no partial record is produced. -/
theorem record_missing_field :
    ∀ (name : String) (fields : List (String × Schema)) (es : List (String × Dyn)),
      (∃ pr ∈ fields, dictGet es pr.1 = Option.none) →
      to_avro_value (.dict es) (.record name fields) = Option.none := by
  intro name fields es h
  rw [to_avro_value_record]
  simp [castDict, encodeFields_eq_none_of_missing es fields h]

/-- Witness for C4 at a concrete input: a record with one declared field
`id` rejects the empty dict. -/
theorem record_missing_field_witness :
    to_avro_value (.dict []) (.record "r" [("id", .long)]) = Option.none :=
  record_missing_field "r" [("id", .long)] [] ⟨("id", .long), by simp, rfl⟩

/-- C5: record encoding reads only the schema-declared names: the result is
the same for any two dicts that look up identically (so the dict's own key
order is irrelevant), a key that is not a declared field name is silently
ignored, and when every declared field is present and encodable the result
is the sequence of (field name, encoded value) pairs in schema-declared
order. -/
theorem record_field_order :
    (∀ (name : String) (fields : List (String × Schema))
        (es es' : List (String × Dyn)),
      (∀ k, dictGet es k = dictGet es' k) →
      to_avro_value (.dict es) (.record name fields) =
        to_avro_value (.dict es') (.record name fields)) ∧
    (∀ (name : String) (fields : List (String × Schema)) (k : String) (dv : Dyn)
        (es : List (String × Dyn)),
      isFieldName fields k = false →
      to_avro_value (.dict ((k, dv) :: es)) (.record name fields) =
        to_avro_value (.dict es) (.record name fields)) ∧
    (∀ (name : String) (fields : List (String × Schema)) (es : List (String × Dyn)),
      (∀ pr ∈ fields, ∃ dv v, dictGet es pr.1 = some dv ∧
        to_avro_value dv pr.2 = some v) →
      ∃ vs, to_avro_value (.dict es) (.record name fields) = some (.record vs) ∧
        vs.map Prod.fst = fields.map Prod.fst ∧
        List.Forall₂ (fun pr pv => pv.1 = pr.1 ∧
          ∃ dv, dictGet es pr.1 = some dv ∧ to_avro_value dv pr.2 = some pv.2)
          fields vs) := by
  refine ⟨?_, ?_, ?_⟩
  · intro name fields es es' h
    rw [to_avro_value_record, to_avro_value_record]
    simp [castDict, encodeFields_congr fields es es' fun pr _ => h pr.1]
  · intro name fields k dv es h
    rw [to_avro_value_record, to_avro_value_record]
    have hne : ∀ pr ∈ fields, dictGet ((k, dv) :: es) pr.1 = dictGet es pr.1 := by
      intro pr hpr
      have hkne : k ≠ pr.1 := by
        intro hk
        have htrue : isFieldName fields k = true := by
          unfold isFieldName
          exact List.any_eq_true.mpr ⟨pr, hpr, by simp [hk]⟩
        simp [htrue] at h
      simp [dictGet, hkne]
    simp [castDict, encodeFields_congr fields ((k, dv) :: es) es hne]
  · intro name fields es h
    obtain ⟨vs, hvs, hfa⟩ := encodeFields_some es fields h
    refine ⟨vs, ?_, mapFst_eq_of_forall₂ (fun _ _ hp => hp.1) hfa, hfa⟩
    rw [to_avro_value_record]
    simp [castDict, hvs]

/-- Witness for C5 at a concrete input: keys supplied in reverse schema
order with an extra unknown key still encode in schema-declared order. -/
theorem record_field_order_witness :
    ∃ vs, to_avro_value
        (.dict [("extra", .bool true), ("b", .str "s"), ("a", .int 1)])
        (.record "r" [("a", .long), ("b", .string)]) = some (.record vs) ∧
      vs.map Prod.fst = ["a", "b"] ∧
      List.Forall₂ (fun pr pv => pv.1 = pr.1 ∧
        ∃ dv, dictGet [("extra", .bool true), ("b", .str "s"), ("a", .int 1)] pr.1
            = some dv ∧ to_avro_value dv pr.2 = some pv.2)
        [("a", .long), ("b", .string)] vs :=
  record_field_order.2.2 "r" [("a", .long), ("b", .string)]
    [("extra", .bool true), ("b", .str "s"), ("a", .int 1)]
    (by
      intro pr hpr
      rcases List.mem_cons.mp hpr with h | h
      · refine ⟨.int 1, .long 1, ?_, ?_⟩ <;> rw [h]
        · rfl
        · simp [extractI64, i64Min, i64Max]
      · rcases List.mem_singleton.mp h with rfl
        refine ⟨.str "s", .string "s", rfl, by simp [extractString]⟩)

theorem usizeAsI32_of_le (i : Nat) (h : (i : Int) ≤ i32Max) : usizeAsI32 i = i := by
  unfold usizeAsI32
  rw [Int.bmod_def]
  have h32 : ((2 ^ 32 : Nat) : Int) = 4294967296 := by norm_num
  rw [h32]
  unfold i32Max at h
  omega

theorem i32AsUsize_of_nonneg (n : Int) (h0 : 0 ≤ n) (h : n ≤ i32Max) :
    i32AsUsize n = n.toNat := by
  unfold i32AsUsize
  have h64 : ((2 : Int)) ^ 64 = 18446744073709551616 := by norm_num
  unfold i32Max at h
  rw [h64]
  omega

theorem i32AsUsize_of_neg (n : Int) (hlo : i32Min ≤ n) (h : n < 0) :
    2 ^ 63 < i32AsUsize n := by
  unfold i32AsUsize
  have h64 : ((2 : Int)) ^ 64 = 18446744073709551616 := by norm_num
  unfold i32Min at hlo
  rw [h64]
  have h31 : ((2 : Int)) ^ 31 = 2147483648 := by norm_num
  rw [h31] at hlo
  have h63 : (2 : Nat) ^ 63 = 9223372036854775808 := by norm_num
  rw [h63]
  omega

theorem findIdx?_beq_eq_indexOf (s : String) :
    ∀ (syms : List String) (i : Nat), s ∈ syms →
      List.findIdx? (fun t => t == s) syms i = some (i + syms.indexOf s) := by
  intro syms
  induction syms with
  | nil => intro i h; cases h
  | cons t rest ih =>
      intro i h
      by_cases ht : t = s
      · subst ht
        simp [List.findIdx?_cons, List.indexOf_cons_self]
      · have hmem : s ∈ rest := by
          rcases List.mem_cons.mp h with h1 | h1
          · exact absurd h1.symm ht
          · exact h1
        rw [List.findIdx?_cons, if_neg (by simp [ht]), ih (i + 1) hmem,
          List.indexOf_cons_ne _ ht]
        congr 1
        omega

theorem findIdx?_beq_eq_none (s : String) (syms : List String) (h : s ∉ syms) :
    List.findIdx? (fun t => t == s) syms = Option.none := by
  rw [List.findIdx?_eq_none_iff]
  intro t ht
  simp only [beq_eq_false_iff_ne, ne_eq]
  intro he
  exact h (he ▸ ht)

/-- C6: enum encoding: text equal to some symbol produces
`Enum(first index of that symbol, symbol)`; text matching no symbol fails;
an integer `i` with `0 ≤ i < length symbols` produces `Enum(i, symbols[i])`;
an integer at or beyond the symbol count fails.  (The text form is matched
first; the integer form is only reached when the value is not text.) -/
theorem enum_encoding :
    (∀ (nm : String) (syms : List String) (s : String), s ∈ syms →
      (syms.indexOf s : Int) ≤ i32Max →
      to_avro_value (.str s) (.enum nm syms) = some (.enum (syms.indexOf s) s)) ∧
    (∀ (nm : String) (syms : List String) (s : String), s ∉ syms →
      to_avro_value (.str s) (.enum nm syms) = Option.none) ∧
    (∀ (nm : String) (syms : List String) (i : Nat) (h : i < syms.length),
      (i : Int) ≤ i32Max →
      to_avro_value (.int i) (.enum nm syms) = some (.enum i (syms.get ⟨i, h⟩))) ∧
    (∀ (nm : String) (syms : List String) (n : Int), (syms.length : Int) ≤ n →
      to_avro_value (.int n) (.enum nm syms) = Option.none) := by
  refine ⟨?_, ?_, ?_, ?_⟩
  · intro nm syms s hmem hle
    rw [to_avro_value_enum]
    simp only [extractString, findIdx?_beq_eq_indexOf s syms 0 hmem, Nat.zero_add]
    rw [usizeAsI32_of_le _ hle]
  · intro nm syms s hmem
    rw [to_avro_value_enum]
    simp only [extractString, findIdx?_beq_eq_none s syms hmem]
  · intro nm syms i h hle
    rw [to_avro_value_enum]
    have hext : extractI32 (.int (i : Int)) = some (i : Int) := by
      have : i32Min ≤ (i : Int) := le_trans (by norm_num [i32Min]) (Int.ofNat_nonneg i)
      simp [extractI32, this, hle]
    have hidx : i32AsUsize i = i := by
      rw [i32AsUsize_of_nonneg _ (Int.ofNat_nonneg i) hle]
      exact Int.toNat_natCast i
    simp only [extractString, hext, Option.some_bind, hidx, h, dif_pos]
    rw [usizeAsI32_of_le _ hle]
  · intro nm syms n hle
    rw [to_avro_value_enum]
    have hn0 : 0 ≤ n := le_trans (Int.ofNat_nonneg _) hle
    by_cases hub : n ≤ i32Max
    · have hext : extractI32 (.int n) = some n := by
        have : i32Min ≤ n := le_trans (by norm_num [i32Min]) hn0
        simp [extractI32, this, hub]
      have hidx : ¬ (i32AsUsize n < syms.length) := by
        rw [i32AsUsize_of_nonneg _ hn0 hub]
        omega
      simp only [extractString, hext, Option.some_bind, hidx, dif_neg,
        not_false_iff]
    · have hext : extractI32 (.int n) = Option.none := by
        simp [extractI32]
        intro _
        omega
      simp only [extractString, hext, Option.none_bind]

/-- Witness for C6 at concrete inputs: `["A", "B"]` encodes the text `"B"`
to ordinal 1, and rejects the out-of-range index 5. -/
theorem enum_encoding_witness :
    to_avro_value (.str "B") (.enum "e" ["A", "B"]) = some (.enum 1 "B") ∧
    to_avro_value (.int 5) (.enum "e" ["A", "B"]) = Option.none := by
  constructor
  · have h := enum_encoding.1 "e" ["A", "B"] "B" (by simp) (by decide)
    have hidx : List.indexOf "B" ["A", "B"] = 1 := by decide
    rw [h, hidx]
    rfl
  · exact enum_encoding.2.2.2 "e" ["A", "B"] 5 (by norm_num)

/-- C9: for an enum schema, every negative integer fails with the
type-mismatch error: the 32-bit value is reinterpreted as an unsigned
index (`as usize`), so a negative input lands above `2^63` and can never
pass the bounds check against the symbol count (a Rust vector is no longer
than `2^63`); the symbol list is never indexed from the end. -/
theorem enum_negative_index :
    ∀ (nm : String) (syms : List String) (n : Int), n < 0 →
      syms.length ≤ 2 ^ 63 →
      to_avro_value (.int n) (.enum nm syms) = Option.none := by
  intro nm syms n hneg hlen
  rw [to_avro_value_enum]
  by_cases hb : i32Min ≤ n
  · have hext : extractI32 (.int n) = some n := by
      have : n ≤ i32Max := le_trans (le_of_lt hneg) (by norm_num [i32Max])
      simp [extractI32, hb, this]
    have hidx : ¬ (i32AsUsize n < syms.length) := by
      have := i32AsUsize_of_neg n hb hneg
      omega
    simp only [extractString, hext, Option.some_bind, hidx, dif_neg,
      not_false_iff]
  · have hext : extractI32 (.int n) = Option.none := by
      simp [extractI32]
      intro h
      exact absurd h hb
    simp only [extractString, hext, Option.none_bind]

/-- Witness for C9 at a concrete input: the index -1 is rejected by a
two-symbol enum (it does not select the last symbol). -/
theorem enum_negative_index_witness :
    to_avro_value (.int (-1)) (.enum "e" ["A", "B"]) = Option.none :=
  enum_negative_index "e" ["A", "B"] (-1) (by norm_num) (by norm_num)

/-- C7: scalar schema strictness: `Boolean` accepts exactly dynamic
booleans; `Int` accepts exactly integers representable in 32 bits (an
integer out of range fails — no wrapping or truncation) and booleans (which
are Python integers 1/0); `Long` likewise with 64-bit bounds; `Float`
accepts exactly floats convertible without loss to 32-bit precision (a
lossy value fails); `Double` accepts exactly floats. -/
theorem scalar_strictness :
    (∀ b, to_avro_value (.bool b) .boolean = some (.boolean b)) ∧
    (∀ d, (to_avro_value d .boolean).isSome = true ↔ ∃ b, d = .bool b) ∧
    (∀ n : Int, to_avro_value (.int n) .int =
      if i32Min ≤ n ∧ n ≤ i32Max then some (.int n) else Option.none) ∧
    (∀ d, (to_avro_value d .int).isSome = true ↔
      ((∃ n, d = .int n ∧ i32Min ≤ n ∧ n ≤ i32Max) ∨ ∃ b, d = .bool b)) ∧
    (∀ n : Int, to_avro_value (.int n) .long =
      if i64Min ≤ n ∧ n ≤ i64Max then some (.long n) else Option.none) ∧
    (∀ d, (to_avro_value d .long).isSome = true ↔
      ((∃ n, d = .int n ∧ i64Min ≤ n ∧ n ≤ i64Max) ∨ ∃ b, d = .bool b)) ∧
    (∀ q : ℚ, to_avro_value (.float q) .float =
      if isF32 q then some (.float q) else Option.none) ∧
    (∀ d, (to_avro_value d .float).isSome = true ↔
      ∃ q, d = .float q ∧ isF32 q = true) ∧
    (∀ q : ℚ, to_avro_value (.float q) .double = some (.double q)) ∧
    (∀ d, (to_avro_value d .double).isSome = true ↔ ∃ q, d = .float q) := by
  refine ⟨?_, ?_, ?_, ?_, ?_, ?_, ?_, ?_, ?_, ?_⟩
  · intro b
    simp [extractBool]
  · intro d
    cases d <;> simp [extractBool]
  · intro n
    simp only [to_avro_value_int, extractI32]
    split <;> rfl
  · intro d
    cases d <;> simp [extractI32]
  · intro n
    simp only [to_avro_value_long, extractI64]
    split <;> rfl
  · intro d
    cases d <;> simp [extractI64]
  · intro q
    simp only [to_avro_value_float, extractF32]
    split <;> rfl
  · intro d
    cases d <;> simp [extractF32]
  · intro q
    simp [extractF64]
  · intro d
    cases d <;> simp [extractF64]

/-- C10: for the `Int` and `Long` schemas, a dynamic boolean encodes
successfully (Python booleans are integers): `True` gives 1 and `False`
gives 0. -/
theorem bool_as_integer :
    to_avro_value (.bool true) .int = some (.int 1) ∧
    to_avro_value (.bool false) .int = some (.int 0) ∧
    to_avro_value (.bool true) .long = some (.long 1) ∧
    to_avro_value (.bool false) .long = some (.long 0) := by
  refine ⟨?_, ?_, ?_, ?_⟩ <;> simp [extractI32, extractI64]

theorem decodeItems_isSome (items : List Value)
    (h : ∀ v ∈ items, (to_pyobject v).isSome = true) :
    (decodeItems items).isSome = true := by
  induction items with
  | nil => simp
  | cons v rest ih =>
      rw [decodeItems_cons]
      obtain ⟨d, hd⟩ := Option.isSome_iff_exists.mp (h v (by simp))
      obtain ⟨ds, hds⟩ :=
        Option.isSome_iff_exists.mp (ih fun w hw => h w (by simp [hw]))
      simp [hd, hds]

theorem decodeEntries_isSome (entries : List (String × Value))
    (h : ∀ p ∈ entries, (to_pyobject p.2).isSome = true) :
    (decodeEntries entries).isSome = true := by
  induction entries with
  | nil => simp
  | cons p rest ih =>
      obtain ⟨k, v⟩ := p
      rw [decodeEntries_cons]
      obtain ⟨d, hd⟩ := Option.isSome_iff_exists.mp (h (k, v) (by simp))
      obtain ⟨ds, hds⟩ :=
        Option.isSome_iff_exists.mp (ih fun w hw => h w (by simp [hw]))
      simp [hd, hds]

theorem to_pyobject_total_aux :
    ∀ (n : Nat) (v : Value), sizeOf v ≤ n → (to_pyobject v).isSome = true := by
  intro n
  induction n with
  | zero =>
      intro v hv
      cases v <;> simp at hv
  | succ n ih =>
      intro v hv
      cases v with
      | union inner =>
          rw [to_pyobject_union]
          refine ih inner ?_
          simp at hv
          omega
      | array items =>
          rw [to_pyobject_array]
          have hsome : (decodeItems items).isSome = true := by
            refine decodeItems_isSome items fun w hw => ih w ?_
            have hlt := List.sizeOf_lt_of_mem hw
            simp at hv
            omega
          obtain ⟨ds, hds⟩ := Option.isSome_iff_exists.mp hsome
          simp [hds]
      | map entries =>
          rw [to_pyobject_map]
          have hsome : (decodeEntries entries).isSome = true := by
            refine decodeEntries_isSome entries fun w hw => ?_
            obtain ⟨k, x⟩ := w
            have hlt := List.sizeOf_lt_of_mem hw
            simp at hlt
            refine ih x ?_
            simp at hv
            omega
          obtain ⟨ds, hds⟩ := Option.isSome_iff_exists.mp hsome
          simp [hds]
      | record fields =>
          rw [to_pyobject_record]
          have hsome : (decodeEntries fields).isSome = true := by
            refine decodeEntries_isSome fields fun w hw => ?_
            obtain ⟨k, x⟩ := w
            have hlt := List.sizeOf_lt_of_mem hw
            simp at hlt
            refine ih x ?_
            simp at hv
            omega
          obtain ⟨ds, hds⟩ := Option.isSome_iff_exists.mp hsome
          simp [hds]
      | null => simp
      | boolean b => simp
      | int m => simp
      | long m => simp
      | float x => simp
      | double x => simp
      | bytes bs => simp
      | string s => simp
      | fixed size bs => simp
      | enum o sy => simp
      | unrecognized => simp

/-- C8: the decoder is total: `to_pyobject` succeeds on every intermediate
value (it never fails), and a value variant outside the classified set
decodes to none rather than an error. -/
theorem decoder_total :
    (∀ v : Value, (to_pyobject v).isSome = true) ∧
    to_pyobject Value.unrecognized = some Dyn.none :=
  ⟨fun v => to_pyobject_total_aux (sizeOf v) v (le_refl _),
    to_pyobject_unrecognized⟩

/-! Inversion lemmas for `conforms`, and dict lemmas for the round-trip
proof. -/

theorem Dyn.isNone_iff (d : Dyn) : d.isNone = true ↔ d = .none := by
  cases d <;> simp [Dyn.isNone]

theorem conforms_null_iff (d : Dyn) : conforms .null d = true ↔ d = .none := by
  rw [conforms.eq_def]
  cases d <;> simp

theorem conforms_boolean_iff (d : Dyn) :
    conforms .boolean d = true ↔ ∃ b, d = .bool b := by
  rw [conforms.eq_def]
  cases d <;> simp

theorem conforms_int_iff (d : Dyn) :
    conforms .int d = true ↔ ∃ n, d = .int n ∧ i32Min ≤ n ∧ n ≤ i32Max := by
  rw [conforms.eq_def]
  cases d <;> simp

theorem conforms_long_iff (d : Dyn) :
    conforms .long d = true ↔ ∃ n, d = .int n ∧ i64Min ≤ n ∧ n ≤ i64Max := by
  rw [conforms.eq_def]
  cases d <;> simp

theorem conforms_float_iff (d : Dyn) :
    conforms .float d = true ↔ ∃ q, d = .float q ∧ isF32 q = true := by
  rw [conforms.eq_def]
  cases d <;> simp

theorem conforms_double_iff (d : Dyn) :
    conforms .double d = true ↔ ∃ q, d = .float q := by
  rw [conforms.eq_def]
  cases d <;> simp

theorem conforms_bytes_iff (d : Dyn) :
    conforms .bytes d = true ↔ ∃ bs, d = .bytes bs := by
  rw [conforms.eq_def]
  cases d <;> simp

theorem conforms_string_iff (d : Dyn) :
    conforms .string d = true ↔ ∃ s, d = .str s := by
  rw [conforms.eq_def]
  cases d <;> simp

theorem conforms_array_iff (inner : Schema) (d : Dyn) :
    conforms (.array inner) d = true ↔
      ∃ xs, d = .list xs ∧ conformsList inner xs = true := by
  rw [conforms.eq_def]
  cases d <;> simp

theorem conforms_map_iff (inner : Schema) (d : Dyn) :
    conforms (.map inner) d = true ↔
      ∃ es, d = .dict es ∧ keysNodup es = true ∧ conformsVals inner es = true := by
  rw [conforms.eq_def]
  cases d <;> simp

theorem conforms_record_iff (nm : String) (fields : List (String × Schema)) (d : Dyn) :
    conforms (.record nm fields) d = true ↔
      ∃ es, d = .dict es ∧ keysNodup es = true ∧ conformsFields fields es = true ∧
        (es.all fun p => isFieldName fields p.1) = true := by
  rw [conforms.eq_def]
  cases d <;> simp [and_assoc]

theorem conforms_enum_iff (nm : String) (syms : List String) (d : Dyn) :
    conforms (.enum nm syms) d = true ↔ ∃ s, d = .str s ∧ s ∈ syms := by
  rw [conforms.eq_def]
  cases d <;> simp [List.elem_iff]

theorem conforms_fixed_iff (nm : String) (size : Nat) (d : Dyn) :
    conforms (.fixed nm size) d = true ↔ ∃ bs, d = .bytes bs := by
  rw [conforms.eq_def]
  cases d <;> simp

theorem conforms_unrecognized (d : Dyn) : conforms .unrecognized d = false := by
  rw [conforms.eq_def]

theorem dictGet_isSome_of_mem_keys {α : Type} (es : List (String × α)) (k : String)
    (h : k ∈ es.map Prod.fst) : (dictGet es k).isSome = true := by
  induction es with
  | nil => simp at h
  | cons p rest ih =>
      obtain ⟨k0, v⟩ := p
      by_cases hk : k0 = k
      · simp [dictGet, hk]
      · have : k ∈ rest.map Prod.fst := by
          rcases List.mem_map.mp h with ⟨q, hq, hfst⟩
          rcases List.mem_cons.mp hq with h1 | h1
          · rw [h1] at hfst
            exact absurd hfst hk
          · exact List.mem_map.mpr ⟨q, h1, hfst⟩
        simp [dictGet, hk, ih this]

theorem isFieldName_iff (fields : List (String × Schema)) (k : String) :
    isFieldName fields k = true ↔ k ∈ fields.map Prod.fst := by
  simp only [isFieldName, List.any_eq_true, List.mem_map, beq_iff_eq]

theorem dynSub_of_pointwise : ∀ (ds es : List (String × Dyn)),
    (∀ p ∈ ds, ∃ v, dictGet es p.1 = some v ∧ dynEquiv p.2 v = true) →
    dynSub ds es = true := by
  intro ds es h
  induction ds with
  | nil => simp
  | cons p rest ih =>
      obtain ⟨k, w⟩ := p
      obtain ⟨v, hget, heqv⟩ := h (k, w) (by simp)
      rw [dynSub_cons]
      simp [hget, heqv, ih fun q hq => h q (by simp [hq])]

theorem items_rt (s : Schema)
    (hP : ∀ x, conforms s x = true → RoundTrips s x) :
    ∀ xs, conformsList s xs = true →
      ∃ vs ds, encodeItems xs s = some vs ∧ decodeItems vs = some ds ∧
        dynEquivList ds xs = true := by
  intro xs hc
  induction xs with
  | nil => exact ⟨[], [], by simp, by simp, by simp⟩
  | cons x rest ih =>
      rw [conformsList_cons, Bool.and_eq_true] at hc
      obtain ⟨v, d', henc, hdec, heqv⟩ := hP x hc.1
      obtain ⟨vs, ds, hencs, hdecs, heqvs⟩ := ih hc.2
      exact ⟨v :: vs, d' :: ds, by simp [henc, hencs], by simp [hdec, hdecs],
        by simp [heqv, heqvs]⟩

theorem entries_rt (s : Schema)
    (hP : ∀ x, conforms s x = true → RoundTrips s x) :
    ∀ es, conformsVals s es = true →
      ∃ vs ds, encodeEntries es s = some vs ∧ decodeEntries vs = some ds ∧
        List.Forall₂ (fun p q => p.1 = q.1 ∧ dynEquiv p.2 q.2 = true) ds es := by
  intro es hc
  induction es with
  | nil => exact ⟨[], [], by simp, by simp, List.Forall₂.nil⟩
  | cons p rest ih =>
      obtain ⟨k, x⟩ := p
      rw [conformsVals_cons, Bool.and_eq_true] at hc
      obtain ⟨v, d', henc, hdec, heqv⟩ := hP x hc.1
      obtain ⟨vs, ds, hencs, hdecs, hfa⟩ := ih hc.2
      exact ⟨(k, v) :: vs, (k, d') :: ds, by simp [henc, hencs],
        by simp [hdec, hdecs], List.Forall₂.cons ⟨rfl, heqv⟩ hfa⟩

theorem pointwise_of_forall₂ :
    ∀ (ds es : List (String × Dyn)),
      List.Forall₂ (fun p q => p.1 = q.1 ∧ dynEquiv p.2 q.2 = true) ds es →
      keysNodup es = true →
      ∀ p ∈ ds, ∃ v, dictGet es p.1 = some v ∧ dynEquiv p.2 v = true := by
  intro ds es hfa
  induction hfa with
  | nil =>
      intro _ p hp
      simp at hp
  | @cons a b l₁ l₂ hpq htail ih =>
      intro hnd p hp
      have hnd' : keysNodup l₂ = true := by
        simp only [keysNodup, List.map_cons, List.nodup_cons, decide_eq_true_eq] at hnd ⊢
        exact hnd.2
      rcases List.mem_cons.mp hp with rfl | hmem
      · refine ⟨b.2, ?_, hpq.2⟩
        obtain ⟨kb, vb⟩ := b
        have : kb = p.1 := hpq.1.symm
        simp [dictGet, this]
      · obtain ⟨v, hget, heqv⟩ := ih hnd' p hmem
        refine ⟨v, ?_, heqv⟩
        have hkeys : l₂.map Prod.fst = l₁.map Prod.fst :=
          mapFst_eq_of_forall₂ (fun pr pv h => h.1.symm) htail
        have hmemk : p.1 ∈ l₂.map Prod.fst := by
          rw [hkeys]
          exact List.mem_map.mpr ⟨p, hmem, rfl⟩
        have hbk : b.1 ∉ l₂.map Prod.fst := by
          simp only [keysNodup, List.map_cons, List.nodup_cons,
            decide_eq_true_eq] at hnd
          exact hnd.1
        have hne : b.1 ≠ p.1 := fun he => hbk (he ▸ hmemk)
        obtain ⟨kb, vb⟩ := b
        simpa [dictGet, hne] using hget

theorem fields_rt :
    ∀ (fields : List (String × Schema)) (es : List (String × Dyn)),
      (∀ pr ∈ fields, ∀ dv, conforms pr.2 dv = true → RoundTrips pr.2 dv) →
      conformsFields fields es = true →
      ∃ vs ds, encodeFields es fields = some vs ∧ decodeEntries vs = some ds ∧
        (∀ p ∈ ds, ∃ v, dictGet es p.1 = some v ∧ dynEquiv p.2 v = true) ∧
        ds.map Prod.fst = fields.map Prod.fst := by
  intro fields
  induction fields with
  | nil =>
      intro es _ _
      exact ⟨[], [], by simp, by simp, by simp, by simp⟩
  | cons f rest ih =>
      obtain ⟨name, fs⟩ := f
      intro es hP hc
      rw [conformsFields_cons, Bool.and_eq_true] at hc
      obtain ⟨h1, h2⟩ := hc
      cases hget : dictGet es name with
      | none =>
          rw [hget] at h1
          exact absurd h1 (by simp)
      | some dv =>
          rw [hget] at h1
          obtain ⟨v, d', henc, hdec, heqv⟩ := hP (name, fs) (by simp) dv h1
          obtain ⟨vs, ds, hencs, hdecs, hpt, hkeys⟩ :=
            ih es (fun pr hpr => hP pr (by simp [hpr])) h2
          refine ⟨(name, v) :: vs, (name, d') :: ds, ?_, ?_, ?_, ?_⟩
          · rw [encodeFields_cons]
            simp [hget, henc, hencs]
          · rw [decodeEntries_cons]
            simp [hdec, hdecs]
          · intro p hp
            rcases List.mem_cons.mp hp with rfl | hmem
            · exact ⟨dv, hget, heqv⟩
            · exact hpt p hmem
          · simp [hkeys]

theorem variants_rt (d : Dyn) :
    ∀ vs : List Schema,
      (∀ v ∈ vs, ∀ x, conforms v x = true → RoundTrips v x) →
      conformsFirst vs d = true →
      ∃ x d', encodeVariants d vs = some (.union x) ∧ to_pyobject x = some d' ∧
        dynEquiv d' d = true := by
  intro vs
  induction vs with
  | nil =>
      intro _ hc
      simp at hc
  | cons v rest ih =>
      intro hP hc
      rw [conformsFirst_cons] at hc
      by_cases hcv : conforms v d = true
      · obtain ⟨x, d', henc, hdec, heqv⟩ := hP v (by simp) d hcv
        refine ⟨x, d', ?_, hdec, heqv⟩
        rw [encodeVariants_cons, henc]
      · rw [if_neg hcv] at hc
        by_cases hsome : (to_avro_value d v).isSome = true
        · rw [if_pos hsome] at hc
          exact absurd hc (by simp)
        · rw [if_neg hsome] at hc
          obtain ⟨x, d', henc, hdec, heqv⟩ :=
            ih (fun w hw => hP w (by simp [hw])) hc
          refine ⟨x, d', ?_, hdec, heqv⟩
          rw [encodeVariants_cons,
            Option.not_isSome_iff_eq_none.mp hsome]
          exact henc

theorem roundtrip_aux :
    ∀ (N : Nat) (s : Schema), sizeOf s ≤ N →
      ∀ d, conforms s d = true → RoundTrips s d := by
  intro N
  induction N with
  | zero =>
      intro s hs
      exfalso
      cases s <;> simp at hs
  | succ N ih =>
      intro s hs d hc
      cases s with
      | null =>
          obtain rfl := (conforms_null_iff d).mp hc
          exact ⟨.null, .none, by simp [Dyn.isNone], by simp, by simp⟩
      | boolean =>
          obtain ⟨b, rfl⟩ := (conforms_boolean_iff d).mp hc
          exact ⟨.boolean b, .bool b, by simp [extractBool], by simp, by simp⟩
      | int =>
          obtain ⟨n, rfl, h1, h2⟩ := (conforms_int_iff d).mp hc
          exact ⟨.int n, .int n, by simp [extractI32, h1, h2], by simp, by simp⟩
      | long =>
          obtain ⟨n, rfl, h1, h2⟩ := (conforms_long_iff d).mp hc
          exact ⟨.long n, .int n, by simp [extractI64, h1, h2], by simp, by simp⟩
      | float =>
          obtain ⟨q, rfl, hq⟩ := (conforms_float_iff d).mp hc
          exact ⟨.float q, .float q, by simp [extractF32, hq], by simp, by simp⟩
      | double =>
          obtain ⟨q, rfl⟩ := (conforms_double_iff d).mp hc
          exact ⟨.double q, .float q, by simp [extractF64], by simp, by simp⟩
      | bytes =>
          obtain ⟨bs, rfl⟩ := (conforms_bytes_iff d).mp hc
          exact ⟨.bytes bs, .bytes bs, by simp [extractBytes], by simp, by simp⟩
      | string =>
          obtain ⟨s, rfl⟩ := (conforms_string_iff d).mp hc
          exact ⟨.string s, .str s, by simp [extractString], by simp, by simp⟩
      | fixed nm size =>
          obtain ⟨bs, rfl⟩ := (conforms_fixed_iff nm size d).mp hc
          exact ⟨.fixed bs.length bs, .bytes bs, by simp [extractBytes],
            by simp, by simp⟩
      | enum nm syms =>
          obtain ⟨s, rfl, hmem⟩ := (conforms_enum_iff nm syms d).mp hc
          refine ⟨.enum (usizeAsI32 (syms.indexOf s)) s, .str s, ?_, by simp,
            by simp⟩
          rw [to_avro_value_enum]
          simp [extractString, findIdx?_beq_eq_indexOf s syms 0 hmem]
      | unrecognized =>
          rw [conforms_unrecognized] at hc
          exact absurd hc (by simp)
      | array inner =>
          obtain ⟨xs, rfl, hxs⟩ := (conforms_array_iff inner d).mp hc
          have hsz : sizeOf inner ≤ N := by
            simp at hs
            omega
          obtain ⟨vs, ds, henc, hdec, heqv⟩ :=
            items_rt inner (fun x hx => ih inner hsz x hx) xs hxs
          exact ⟨.array vs, .list ds, by simp [extractList, henc],
            by simp [hdec], by simp [heqv]⟩
      | map inner =>
          obtain ⟨es, rfl, hnd, hvals⟩ := (conforms_map_iff inner d).mp hc
          have hsz : sizeOf inner ≤ N := by
            simp at hs
            omega
          obtain ⟨vs, ds, henc, hdec, hfa⟩ :=
            entries_rt inner (fun x hx => ih inner hsz x hx) es hvals
          refine ⟨.map vs, .dict ds, by simp [castDict, henc], by simp [hdec], ?_⟩
          rw [dynEquiv_dict]
          have hpt := pointwise_of_forall₂ ds es hfa hnd
          have hsub := dynSub_of_pointwise ds es hpt
          have hkeys : ds.map Prod.fst = es.map Prod.fst := by
            have := mapFst_eq_of_forall₂ (fun pr pv h => h.1.symm) hfa
            exact this.symm
          have hinc : keysIncluded es ds = true := by
            rw [keysIncluded, List.all_eq_true]
            intro p hp
            refine dictGet_isSome_of_mem_keys ds p.1 ?_
            rw [hkeys]
            exact List.mem_map.mpr ⟨p, hp, rfl⟩
          simp [hsub, hinc]
      | union vs =>
          rw [conforms_union] at hc
          by_cases hd : d.isNone = true
          · rw [if_pos hd] at hc
            obtain rfl := (Dyn.isNone_iff d).mp hd
            refine ⟨.union .null, .none, ?_, by simp, by simp⟩
            rw [to_avro_value_union]
            simp [hc, Dyn.isNone]
          · have hd' : d.isNone = false := by
              cases hh : d.isNone
              · rfl
              · exact absurd hh hd
            rw [if_neg hd] at hc
            have hP : ∀ v ∈ vs, ∀ x, conforms v x = true → RoundTrips v x := by
              intro v hv x hx
              have hlt := List.sizeOf_lt_of_mem hv
              refine ih v ?_ x hx
              simp at hs
              omega
            obtain ⟨x, d', henc, hdec, heqv⟩ := variants_rt d vs hP hc
            refine ⟨.union x, d', ?_, by simp [hdec], heqv⟩
            rw [to_avro_value_union, if_neg (by simp [hd'])]
            exact henc
      | record nm fields =>
          obtain ⟨es, rfl, hnd, hcf, hall⟩ := (conforms_record_iff nm fields d).mp hc
          have hP : ∀ pr ∈ fields, ∀ dv, conforms pr.2 dv = true →
              RoundTrips pr.2 dv := by
            intro pr hpr dv hdv
            have hlt := List.sizeOf_lt_of_mem hpr
            obtain ⟨n0, fs0⟩ := pr
            refine ih fs0 ?_ dv hdv
            simp at hs hlt
            omega
          obtain ⟨vs, ds, henc, hdec, hpt, hkeys⟩ := fields_rt fields es hP hcf
          refine ⟨.record vs, .dict ds, by simp [castDict, henc],
            by simp [hdec], ?_⟩
          rw [dynEquiv_dict]
          have hsub := dynSub_of_pointwise ds es hpt
          have hinc : keysIncluded es ds = true := by
            rw [keysIncluded, List.all_eq_true]
            intro p hp
            refine dictGet_isSome_of_mem_keys ds p.1 ?_
            rw [hkeys]
            rw [List.all_eq_true] at hall
            exact (isFieldName_iff fields p.1).mp (hall p hp)
          simp [hsub, hinc]

/-- C1: round-trip: for every schema and every conforming dynamic value,
encoding with `to_avro_value` and decoding the result with `to_pyobject`
yields a dynamic value structurally equal to the original — across leaf
scalar kinds, nested arrays, maps and records, and unions including the
null-optional case. -/
theorem encode_decode_roundtrip :
    ∀ (s : Schema) (d : Dyn), conforms s d = true →
      ∃ d', writeRead d s = some d' ∧ dynEquiv d' d = true := by
  intro s d hc
  obtain ⟨v, d', henc, hdec, heqv⟩ :=
    roundtrip_aux (sizeOf s) s (le_refl _) d hc
  exact ⟨d', by simp [writeRead, henc, hdec], heqv⟩

/-- Witness for C1 at a concrete input: the spec's scenario, a record
`{id: long, tag: union[null, string], xs: array int}` with the dict keys
supplied in reverse order and the optional field none. -/
theorem encode_decode_roundtrip_witness :
    ∃ d', writeRead
        (.dict [("xs", .list [.int 1, .int 2]), ("tag", .none), ("id", .int 42)])
        (.record "rec"
          [("id", .long), ("tag", .union [.null, .string]), ("xs", .array .int)])
        = some d' ∧
      dynEquiv d'
        (.dict [("xs", .list [.int 1, .int 2]), ("tag", .none), ("id", .int 42)])
        = true :=
  encode_decode_roundtrip _ _ (by
    simp [keysNodup, dictGet, isNullable, isNullSchema, isFieldName,
      i64Min, i64Max, i32Min, i32Max, Dyn.isNone])

end AvroPy
